import Mathlib

/-!
Verification of the company-inference core of the POC briefing app.

Strings are modelled as `List Char` (`Str`).  Python string operations used by
the source (`str.lower`, `str.strip`, `str.replace("@","")`, `str.split`,
`str.join`, `str.capitalize`, `str.startswith`) are embedded as executable
functions on `Str`.  Character-level case mapping uses Lean's `Char.toLower`
(ASCII case mapping), which models CPython's behaviour on the ASCII range.
-/

/-- Strings as lists of characters. -/
abbrev Str := List Char

/-- Python `str.lower()` (ASCII model): lower-case every character. -/
def pyLower (s : Str) : Str := s.map Char.toLower

/-- Python `str.strip()` (ASCII model): drop leading and trailing whitespace. -/
def pyStrip (s : Str) : Str :=
  ((s.dropWhile Char.isWhitespace).reverse.dropWhile Char.isWhitespace).reverse

/-- Python `s.split(sep)` for a one-character separator: `splitOnChar sep s`.
`splitOnChar sep "" = [""]`, matching Python. -/
def splitOnChar (sep : Char) : Str → List Str
  | [] => [[]]
  | c :: rest =>
    if c = sep then [] :: splitOnChar sep rest
    else
      match splitOnChar sep rest with
      | [] => [[c]]
      | p :: ps => (c :: p) :: ps

/-- Python `sep.join(parts)` for a one-character separator. -/
def joinSep (sep : Char) : List Str → Str
  | [] => []
  | [p] => p
  | p :: ps => p ++ sep :: joinSep sep ps

/-- The part of `s` after the first occurrence of `ch`
(Python `s.split(ch, 1)[1]`; `[]` when `ch` does not occur). -/
def afterChar (ch : Char) : Str → Str
  | [] => []
  | c :: rest => if c = ch then rest else afterChar ch rest

/-- The part of `s` before the first occurrence of `ch`
(Python `s.split(ch, 1)[0]`). -/
def beforeChar (ch : Char) : Str → Str
  | [] => []
  | c :: rest => if c = ch then [] else c :: beforeChar ch rest

/-- Python `str.capitalize()` (ASCII model): first character upper-cased,
the rest lower-cased. -/
def pyCapitalize (s : Str) : Str :=
  match s with
  | [] => []
  | c :: t => c.toUpper :: pyLower t

/-- First step of `base_domain`: `(d or "").lower().strip().replace("@", "")`. -/
def bdClean (d : Str) : Str :=
  (pyStrip (pyLower d)).filter (fun c => decide (c ≠ '@'))

/-- Second step of `base_domain`: `if d.startswith("www."): d = d[4:]`. -/
def bdStripWWW (s : Str) : Str :=
  if s.take 4 = "www.".data then s.drop 4 else s

/-- The label list `parts = d.split(".")` seen by `base_domain`. -/
def bdParts (d : Str) : List Str :=
  splitOnChar '.' (bdStripWWW (bdClean d))

/-- `base_domain` from `google_helpers.py`: lower-case, strip, remove every
`@`, strip a leading `www.`, and collapse to the last two dot-separated
labels (`".".join(parts[-2:])`) when three or more labels exist. -/
def base_domain (d : Str) : Str :=
  if 3 ≤ (bdParts d).length then
    joinSep '.' ((bdParts d).drop ((bdParts d).length - 2))
  else bdStripWWW (bdClean d)

/-! ### Character-level lemmas -/

theorem Char.toNat_toLower (c : Char) :
    (Char.toLower c).toNat = if 65 ≤ c.toNat ∧ c.toNat ≤ 90 then c.toNat + 32 else c.toNat := by
  unfold Char.toLower
  split
  · next h =>
    rw [if_pos ⟨h.1, h.2⟩]
    have hv : Nat.isValidChar (c.toNat + 32) := Or.inl (by omega)
    rw [Char.ofNat, dif_pos hv]
    rfl
  · next h =>
    rw [if_neg (by intro hc; exact h ⟨hc.1, hc.2⟩)]

theorem Char.toLower_toLower (c : Char) : c.toLower.toLower = c.toLower := by
  apply Char.ext
  apply UInt32.toNat.inj
  show c.toLower.toLower.toNat = c.toLower.toNat
  rw [Char.toNat_toLower c.toLower, Char.toNat_toLower c]
  by_cases h : 65 ≤ c.toNat ∧ c.toNat ≤ 90
  · rw [if_pos h, if_neg (by omega)]
  · rw [if_neg h, if_neg h]

theorem Char.toLower_eq_self_of_notUpper {c : Char} (h : ¬ (65 ≤ c.toNat ∧ c.toNat ≤ 90)) :
    c.toLower = c := by
  unfold Char.toLower
  rw [if_neg (by intro hc; exact h ⟨hc.1, hc.2⟩)]

theorem Char.toNat_inj' {c d : Char} (h : c.toNat = d.toNat) : c = d :=
  Char.ext (UInt32.toNat.inj h)

/-- `Char.toLower` is fixed on characters that are not ASCII upper-case letters;
on those the image is an ASCII lower-case letter. -/
theorem Char.toLower_fix_or_lower (c : Char) :
    (c.toLower = c ∧ ¬ (65 ≤ c.toNat ∧ c.toNat ≤ 90)) ∨
      (97 ≤ c.toLower.toNat ∧ c.toLower.toNat ≤ 122 ∧ 65 ≤ c.toNat ∧ c.toNat ≤ 90) := by
  by_cases h : 65 ≤ c.toNat ∧ c.toNat ≤ 90
  · right
    rw [Char.toNat_toLower, if_pos h]
    omega
  · left
    exact ⟨Char.toLower_eq_self_of_notUpper h, h⟩

/-! ### Lemmas about `splitOnChar`, `joinSep`, `pyStrip`, `pyLower` -/

theorem splitOnChar_ne_nil (sep : Char) (s : Str) : splitOnChar sep s ≠ [] := by
  induction s with
  | nil => simp [splitOnChar]
  | cons c rest ih =>
    unfold splitOnChar
    split
    · simp
    · cases h : splitOnChar sep rest with
      | nil => exact absurd h ih
      | cons p ps => simp

theorem length_splitOnChar (sep : Char) (s : Str) :
    (splitOnChar sep s).length = s.count sep + 1 := by
  induction s with
  | nil => simp [splitOnChar]
  | cons c rest ih =>
    unfold splitOnChar
    by_cases hc : c = sep
    · rw [if_pos hc]
      subst hc
      simp [List.count_cons_self, ih]
    · rw [if_neg hc]
      cases h : splitOnChar sep rest with
      | nil => exact absurd h (splitOnChar_ne_nil sep rest)
      | cons p ps =>
        rw [h] at ih
        simp only [List.length_cons] at ih ⊢
        rw [List.count_cons_of_ne (Ne.symm hc)]
        omega

theorem mem_of_mem_splitOnChar {sep : Char} {s p : Str} {c : Char}
    (hp : p ∈ splitOnChar sep s) (hc : c ∈ p) : c ∈ s := by
  induction s generalizing p with
  | nil =>
    simp only [splitOnChar, List.mem_singleton] at hp
    subst hp
    simp at hc
  | cons a rest ih =>
    unfold splitOnChar at hp
    by_cases ha : a = sep
    · rw [if_pos ha] at hp
      rcases List.mem_cons.mp hp with h | h
      · subst h; simp at hc
      · exact List.mem_cons_of_mem _ (ih h hc)
    · rw [if_neg ha] at hp
      cases hsp : splitOnChar sep rest with
      | nil => exact absurd hsp (splitOnChar_ne_nil sep rest)
      | cons q qs =>
        rw [hsp] at hp
        rcases List.mem_cons.mp hp with h | h
        · subst h
          rcases List.mem_cons.mp hc with h2 | h2
          · subst h2; exact List.mem_cons_self _ _
          · exact List.mem_cons_of_mem _
              (ih (by rw [hsp]; exact List.mem_cons_self q qs) h2)
        · exact List.mem_cons_of_mem _
            (ih (by rw [hsp]; exact List.mem_cons_of_mem q h) hc)

theorem sep_not_mem_splitOnChar {sep : Char} {s p : Str}
    (hp : p ∈ splitOnChar sep s) : sep ∉ p := by
  induction s generalizing p with
  | nil =>
    simp only [splitOnChar, List.mem_singleton] at hp
    subst hp
    simp
  | cons a rest ih =>
    unfold splitOnChar at hp
    by_cases ha : a = sep
    · rw [if_pos ha] at hp
      rcases List.mem_cons.mp hp with h | h
      · subst h; simp
      · exact ih h
    · rw [if_neg ha] at hp
      cases hsp : splitOnChar sep rest with
      | nil => exact absurd hsp (splitOnChar_ne_nil sep rest)
      | cons q qs =>
        rw [hsp] at hp
        rcases List.mem_cons.mp hp with h | h
        · subst h
          intro hmem
          rcases List.mem_cons.mp hmem with h2 | h2
          · exact ha h2.symm
          · exact ih (by rw [hsp]; exact List.mem_cons_self q qs) h2
        · exact ih (by rw [hsp]; exact List.mem_cons_of_mem q h)

theorem mem_joinSep {sep : Char} {ps : List Str} {c : Char} (h : c ∈ joinSep sep ps) :
    c = sep ∨ ∃ p ∈ ps, c ∈ p := by
  induction ps with
  | nil => simp [joinSep] at h
  | cons p ps ih =>
    cases ps with
    | nil =>
      right
      exact ⟨p, List.mem_cons_self _ _, by simpa [joinSep] using h⟩
    | cons q qs =>
      have hj : joinSep sep (p :: q :: qs) = p ++ sep :: joinSep sep (q :: qs) := rfl
      rw [hj] at h
      rcases List.mem_append.mp h with h1 | h1
      · right; exact ⟨p, List.mem_cons_self _ _, h1⟩
      · rcases List.mem_cons.mp h1 with h2 | h2
        · left; exact h2
        · rcases ih h2 with h3 | ⟨r, hr, hcr⟩
          · left; exact h3
          · right; exact ⟨r, List.mem_cons_of_mem _ hr, hcr⟩

theorem mem_pyStrip {s : Str} {c : Char} (h : c ∈ pyStrip s) : c ∈ s := by
  unfold pyStrip at h
  rw [List.mem_reverse] at h
  have h1 : c ∈ (s.dropWhile Char.isWhitespace).reverse :=
    (List.dropWhile_sublist _).subset h
  rw [List.mem_reverse] at h1
  exact (List.dropWhile_sublist _).subset h1

theorem pyLower_eq_self {s : Str} (h : ∀ c ∈ s, c.toLower = c) : pyLower s = s := by
  induction s with
  | nil => rfl
  | cons a t ih =>
    simp only [pyLower, List.map_cons] at ih ⊢
    rw [h a (List.mem_cons_self a t), ih (fun c hc => h c (List.mem_cons_of_mem _ hc))]

/-! ### Structural facts about `base_domain` -/

/-- Every character of `base_domain d` is either the dot inserted by the
join, or survives from the cleaned string (lower-cased, stripped, `@`-free). -/
theorem mem_base_domain {d : Str} {c : Char} (h : c ∈ base_domain d) :
    c = '.' ∨ c ∈ bdClean d := by
  have sub2 : ∀ x : Char, x ∈ bdStripWWW (bdClean d) → x ∈ bdClean d := by
    intro x hx
    unfold bdStripWWW at hx
    split at hx
    · exact (List.drop_subset _ _) hx
    · exact hx
  unfold base_domain at h
  split at h
  · rcases mem_joinSep h with h1 | ⟨p, hp, hcp⟩
    · left; exact h1
    · right
      exact sub2 c (mem_of_mem_splitOnChar ((List.drop_subset _ _) hp) hcp)
  · right; exact sub2 c h

theorem toLower_of_mem_base_domain {d : Str} {c : Char} (h : c ∈ base_domain d) :
    c.toLower = c := by
  rcases mem_base_domain h with rfl | h1
  · decide
  · unfold bdClean at h1
    have h2 := (List.mem_filter.mp h1).1
    rcases List.mem_map.mp (mem_pyStrip h2) with ⟨c0, _, rfl⟩
    exact Char.toLower_toLower c0

theorem at_not_mem_base_domain (d : Str) : '@' ∉ base_domain d := by
  intro h
  rcases mem_base_domain h with h1 | h1
  · exact absurd h1 (by decide)
  · unfold bdClean at h1
    have h2 := (List.mem_filter.mp h1).2
    simp at h2

theorem count_dot_base_domain (d : Str) : (base_domain d).count '.' ≤ 1 := by
  unfold base_domain
  split
  · next hlen =>
    have hlen2 : ((bdParts d).drop ((bdParts d).length - 2)).length = 2 := by
      rw [List.length_drop]
      omega
    rcases List.length_eq_two.mp hlen2 with ⟨p1, p2, hps⟩
    rw [hps]
    have hj : joinSep '.' [p1, p2] = p1 ++ '.' :: p2 := rfl
    rw [hj]
    have h1 : '.' ∉ p1 := by
      apply sep_not_mem_splitOnChar (s := bdStripWWW (bdClean d))
      have : p1 ∈ (bdParts d).drop ((bdParts d).length - 2) := by
        rw [hps]; exact List.mem_cons_self _ _
      exact (List.drop_subset _ _) this
    have h2 : '.' ∉ p2 := by
      apply sep_not_mem_splitOnChar (s := bdStripWWW (bdClean d))
      have : p2 ∈ (bdParts d).drop ((bdParts d).length - 2) := by
        rw [hps]; exact List.mem_cons_of_mem _ (List.mem_cons_self _ _)
      exact (List.drop_subset _ _) this
    rw [List.count_append, List.count_cons_self]
    rw [List.count_eq_zero.mpr h1, List.count_eq_zero.mpr h2]
  · next hlen =>
    have h1 := length_splitOnChar '.' (bdStripWWW (bdClean d))
    have h2 : (bdParts d).length = (splitOnChar '.' (bdStripWWW (bdClean d))).length := rfl
    omega

/-! ### Claim C3: idempotence of base-domain normalization -/

/-- C3 counterexample: `base_domain` is NOT idempotent on every string.
For the input `"x.www.com"` the first application yields `"www.com"`,
and the second strips the now-leading `"www."`, yielding `"com"`. -/
theorem c3_counterexample :
    base_domain (base_domain ("x.www.com".data)) ≠ base_domain ("x.www.com".data) := by
  decide

/-- A string fixed by cleaning, `www.`-stripping, and having at most two
dot-separated labels is a fixed point of `base_domain`. -/
theorem base_domain_fix {s : Str} (hclean : bdClean s = s) (hwww : bdStripWWW s = s)
    (hparts : (splitOnChar '.' s).length ≤ 2) : base_domain s = s := by
  have hbp : bdParts s = splitOnChar '.' s := by
    unfold bdParts
    rw [hclean, hwww]
  unfold base_domain
  rw [hbp, if_neg (by omega), hclean, hwww]

/-- C3 (amended): `base_domain` is idempotent on every input whose normalized
form does not start with `"www."` and is unchanged by whitespace stripping. -/
theorem c3_base_domain_idempotent (d : Str)
    (h1 : (base_domain d).take 4 ≠ "www.".data)
    (h2 : pyStrip (base_domain d) = base_domain d) :
    base_domain (base_domain d) = base_domain d := by
  have hlow : pyLower (base_domain d) = base_domain d :=
    pyLower_eq_self (fun c hc => toLower_of_mem_base_domain hc)
  have hclean : bdClean (base_domain d) = base_domain d := by
    unfold bdClean
    rw [hlow, h2]
    apply List.filter_eq_self.mpr
    intro a ha
    exact decide_eq_true (fun hEq => at_not_mem_base_domain d (hEq ▸ ha))
  have hwww : bdStripWWW (base_domain d) = base_domain d := by
    unfold bdStripWWW
    rw [hclean] at *
    rw [if_neg h1]
  apply base_domain_fix hclean hwww
  rw [length_splitOnChar]
  have := count_dot_base_domain d
  omega

/-- Witness for `c3_base_domain_idempotent` at the concrete input
`"mail.corp.acme.com"` (normalized form `"acme.com"`). -/
theorem c3_base_domain_idempotent_witness :
    (base_domain ("mail.corp.acme.com".data)).take 4 ≠ "www.".data ∧
      pyStrip (base_domain ("mail.corp.acme.com".data)) = base_domain ("mail.corp.acme.com".data) ∧
      base_domain (base_domain ("mail.corp.acme.com".data)) = base_domain ("mail.corp.acme.com".data) :=
  ⟨by decide, by decide, c3_base_domain_idempotent _ (by decide) (by decide)⟩

/-! ### Data model: attendees, configuration, result -/

/-- An attendee as consumed by `attendees_to_company`: either a dict (whose
`"email"` entry may be missing or empty, both read as `""`), or any other
value, which Python renders through `str(a)` to some string. -/
inductive Attendee
  | dict (email : Option Str)
  | str (s : Str)
deriving DecidableEq

/-- The `.env`-derived configuration of `attendees_to_company`, after parsing:
`INTERNAL_DOMAINS`, `IGNORE_DOMAINS` (sets, modelled by membership in a list),
`DOMAIN_PRIORITY` (ordered list), `DOMAIN_NAME_MAP` (insertion-ordered pairs;
lookups take the last binding, like a Python dict). -/
structure Config where
  internal : List Str
  ignore : List Str
  priority : List Str
  nameMap : List (Str × Str)
deriving DecidableEq

/-- The resolver's result `{"companyName": ..., "companyDomain": ...}`. -/
structure CompanyGuess where
  companyName : Str
  companyDomain : Str
deriving DecidableEq

/-- Python `dict` built by assigning the pairs in order, then `.get(k)`:
the last binding of a key wins. -/
def dictGet (pairs : List (Str × Str)) (k : Str) : Option Str :=
  pairs.foldl (fun acc p => if p.1 = k then some p.2 else acc) none

/-- Parsing of a comma-separated domain list:
`[d.strip().lower() for d in raw.split(",") if d.strip()]`. -/
def parseDomainList (raw : Str) : List Str :=
  (splitOnChar ',' raw).filterMap fun d =>
    if pyStrip d = [] then none else some (pyLower (pyStrip d))

/-- Parsing of `DOMAIN_NAME_MAP`: entries are split on `","`; entries without
a `":"` are skipped; each kept entry is stripped and split on the first `":"`
into a lower-cased stripped domain and a stripped display name. -/
def parseNameMap (raw : Str) : List (Str × Str) :=
  ((splitOnChar ',' raw).filter (fun p => decide (':' ∈ p))).map fun p =>
    (pyLower (pyStrip (beforeChar ':' (pyStrip p))), pyStrip (afterChar ':' (pyStrip p)))

/-- The configuration produced by the default values of the four environment
variables in `attendees_to_company`. -/
def defaultConfig : Config where
  internal := parseDomainList
    ("kempfenterprise.com,gmail.com,outlook.com,hotmail.com,yahoo.com,icloud.com,aol.com,proton.me,protonmail.com,me.com".data)
  ignore := parseDomainList ("zoom.us,meetup.com,calendar.google.com,teams.microsoft.com".data)
  priority := []
  nameMap := []

/-! ### The resolver `attendees_to_company` -/

/-- `pretty_from_domain` from `google_helpers.py`:
`core = base_domain(d).split(".")[0]; return core.capitalize() if core else "Unknown"`. -/
def pretty_from_domain (d : Str) : Str :=
  if (splitOnChar '.' (base_domain d)).headD [] = [] then "Unknown".data
  else pyCapitalize ((splitOnChar '.' (base_domain d)).headD [])

/-- Display-name choice used at every winning return:
`NAME_MAP.get(dom, pretty_from_domain(dom))`. -/
def nameFor (cfg : Config) (d : Str) : Str :=
  (dictGet cfg.nameMap d).getD (pretty_from_domain d)

/-- The email string read from one attendee:
`(a.get("email") or "").lower().strip()` for dicts, `str(a).lower().strip()`
otherwise. -/
def extractEmail : Attendee → Str
  | .dict oe => pyStrip (pyLower (oe.getD []))
  | .str s => pyStrip (pyLower s)

/-- Stage 1a: candidate domains from attendee emails -
`base_domain(email.split("@", 1)[1])` for every email containing `"@"`. -/
def domainsOf (attendees : List Attendee) : List Str :=
  attendees.filterMap fun a =>
    if '@' ∈ extractEmail a then some (base_domain (afterChar '@' (extractEmail a))) else none

/-- The filter `d and d not in INTERNAL and d not in IGNORE`, used both to
build `external` and in the stage-4 rescan. -/
def isExternal (cfg : Config) (d : Str) : Bool :=
  decide (d ≠ [] ∧ d ∉ cfg.internal ∧ d ∉ cfg.ignore)

/-- Stage 1b: `external = [d for d in domains if d and d not in INTERNAL and d not in IGNORE]`. -/
def externalOf (cfg : Config) (attendees : List Attendee) : List Str :=
  (domainsOf attendees).filter (isExternal cfg)

/-- Stage 2: first priority entry whose normalization occurs in `external`. -/
def priorityWinner (cfg : Config) (external : List Str) : Option Str :=
  cfg.priority.findSome? fun p =>
    if base_domain p ∈ external then some (base_domain p) else none

/-- The distinct elements of `l` in first-occurrence order: the key order of
`collections.Counter(l)` (Python dicts preserve insertion order). -/
def keysOf : List Str → List Str
  | [] => []
  | x :: xs => x :: (keysOf xs).filter (fun y => decide (y ≠ x))

/-- Scan of the remaining keys keeping the current best, replacing it only on
a strictly larger count: the stable selection performed by
`Counter(...).most_common(1)` (`heapq.nlargest` keeps the earlier item on ties). -/
def maxKeyAux (cnt : Str → Nat) (b : Str) : List Str → Str
  | [] => b
  | k :: ks => maxKeyAux cnt (if cnt b < cnt k then k else b) ks

/-- Stage 3 selection: `Counter(external).most_common(1)[0][0]` - the most
frequent element, ties resolved to the first-encountered key. -/
def mostCommon (l : List Str) : Option Str :=
  match keysOf l with
  | [] => none
  | k :: ks => some (maxKeyAux (fun x => l.count x) k ks)

/-- The stop-word set of stage 5: `{"poc", "call", "meeting", "demo", "discovery"}`. -/
def stopWords : List Str :=
  ["poc".data, "call".data, "meeting".data, "demo".data, "discovery".data]

/-- Stage 5 text: `" ".join([(event_summary or ""), (event_description or "")])`. -/
def eventText (event_summary event_description : Option Str) : Str :=
  event_summary.getD [] ++ ' ' :: event_description.getD []

/-! ### The stage-5 regular expressions

The three patterns of stage 5 are embedded directly.  A "phrase" is the
captured group `[A-Z][A-Za-z0-9&.\- ]{2,}`; the continuation class is
`isPhraseChar`, the leading class is `[A-Z]` - under `re.IGNORECASE` this is
`isLetterCI`, without the flag it is `isUpperAZ` (ASCII model, as in the
source patterns).  `re.search` semantics: leftmost position wins; the greedy
quantifiers here never need to backtrack because `\s`, `)` and the class
characters are disjoint where it matters. -/

/-- The character class `[A-Z]` (case-sensitively). -/
def isUpperAZ (c : Char) : Bool := decide (65 ≤ c.toNat ∧ c.toNat ≤ 90)

/-- The character class `[A-Z]` under `re.IGNORECASE` (ASCII): any letter. -/
def isLetterCI (c : Char) : Bool :=
  decide ((65 ≤ c.toNat ∧ c.toNat ≤ 90) ∨ (97 ≤ c.toNat ∧ c.toNat ≤ 122))

/-- The phrase-continuation class `[A-Za-z0-9&.\- ]` (identical with and
without `re.IGNORECASE`); codes 38, 46, 45, 32 are `&`, `.`, `-`, space. -/
def isPhraseChar (c : Char) : Bool :=
  decide ((65 ≤ c.toNat ∧ c.toNat ≤ 90) ∨ (97 ≤ c.toNat ∧ c.toNat ≤ 122) ∨
    (48 ≤ c.toNat ∧ c.toNat ≤ 57) ∨ c.toNat = 38 ∨ c.toNat = 46 ∨ c.toNat = 45 ∨ c.toNat = 32)

/-- Case-insensitive match of the (lower-case) literal `lit` at the head of
`s`; returns the remainder on success. -/
def litCI (lit : Str) (s : Str) : Option Str :=
  match lit, s with
  | [], s => some s
  | _ :: _, [] => none
  | l :: ls, c :: cs => if c.toLower = l then litCI ls cs else none

/-- Greedy match of `first[A-Za-z0-9&.\- ]{2,}` at the head of `s`, returning
the captured group (the pattern ends after the group, so the greedy run is
simply the maximal one and must have length at least 2). -/
def phraseAt (first : Char → Bool) (s : Str) : Option Str :=
  match s with
  | [] => none
  | c :: rest =>
    if first c then
      if 2 ≤ (rest.takeWhile isPhraseChar).length then some (c :: rest.takeWhile isPhraseChar)
      else none
    else none

/-- `\s+` followed by the captured phrase: requires at least one whitespace,
the greedy run takes all of it (no useful backtracking: `\s` and `[A-Z]` are
disjoint). -/
def wsPlusPhrase (rest : Str) : Option Str :=
  match rest with
  | [] => none
  | c :: _ =>
    if c.isWhitespace then phraseAt isLetterCI (rest.dropWhile Char.isWhitespace)
    else none

/-- Match of `(?:with|for)\s+([A-Z][A-Za-z0-9&.\- ]{2,})` (IGNORECASE) at one
position: alternation tries `with` before `for`. -/
def withForAt (s : Str) : Option Str :=
  match litCI "with".data s <|> litCI "for".data s with
  | none => none
  | some rest => wsPlusPhrase rest

/-- Match of `POC[:\-]\s*([A-Z][A-Za-z0-9&.\- ]{2,})` (IGNORECASE) at one
position. -/
def pocAt (s : Str) : Option Str :=
  match litCI "poc".data s with
  | none => none
  | some rest =>
    match rest with
    | [] => none
    | c :: rest2 =>
      if c = ':' ∨ c = '-' then phraseAt isLetterCI (rest2.dropWhile Char.isWhitespace)
      else none

/-- Match of `\(([A-Z][A-Za-z0-9&.\- ]{2,})\)` (no IGNORECASE) at one
position: after the greedy run the next character must be `)`; since `)` is
not in the run's class, backtracking the run can never help. -/
def parenAt (s : Str) : Option Str :=
  match s with
  | [] => none
  | c :: rest =>
    if c = '(' then
      match phraseAt isUpperAZ rest with
      | none => none
      | some g => if (rest.drop g.length).head? = some ')' then some g else none
    else none

/-- `re.search`: try the position-matcher at each position, leftmost first. -/
def searchAux (m : Str → Option Str) : Str → Option Str
  | [] => m []
  | c :: rest =>
    match m (c :: rest) with
    | some g => some g
    | none => searchAux m rest

/-- `re.search(r"(?:with|for)\s+([A-Z][A-Za-z0-9&.\- ]{2,})", text, re.IGNORECASE)`,
returning the captured group. -/
def searchWithFor (s : Str) : Option Str := searchAux withForAt s

/-- `re.search(r"POC[:\-]\s*([A-Z][A-Za-z0-9&.\- ]{2,})", text, re.IGNORECASE)`,
returning the captured group. -/
def searchPOC (s : Str) : Option Str := searchAux pocAt s

/-- `re.search(r"\(([A-Z][A-Za-z0-9&.\- ]{2,})\)", text)` (case-sensitive),
returning the captured group. -/
def searchParen (s : Str) : Option Str := searchAux parenAt s

/-- Stage 5: the first pattern that matches wins; its stripped candidate is
rejected (falling through to Unknown) when its lower-casing is a stop word. -/
def textCandidate (text : Str) : Option Str :=
  match searchWithFor text <|> searchPOC text <|> searchParen text with
  | none => none
  | some g =>
    if pyLower (pyStrip g) ∈ stopWords then none else some (pyStrip g)

/-- `attendees_to_company` from `google_helpers.py`, with the environment
configuration made explicit.  Stages: 1 collect + filter, 2 priority,
3 majority, 4 unfiltered rescan, 5 text patterns, 6 Unknown. -/
def attendees_to_company (cfg : Config) (attendees : List Attendee)
    (event_summary event_description : Option Str) : CompanyGuess :=
  match priorityWinner cfg (externalOf cfg attendees) with
  | some pb => ⟨nameFor cfg pb, pb⟩
  | none =>
    match mostCommon (externalOf cfg attendees) with
    | some dom => ⟨nameFor cfg dom, dom⟩
    | none =>
      match (domainsOf attendees).find? (isExternal cfg) with
      | some d => ⟨nameFor cfg d, d⟩
      | none =>
        match textCandidate (eventText event_summary event_description) with
        | some cand => ⟨cand, []⟩
        | none => ⟨"Unknown".data, []⟩

/-- The resolver with stage 4 (the unfiltered rescan) removed - the
comparison point for claim C8. -/
def attendees_to_company_noFallback (cfg : Config) (attendees : List Attendee)
    (event_summary event_description : Option Str) : CompanyGuess :=
  match priorityWinner cfg (externalOf cfg attendees) with
  | some pb => ⟨nameFor cfg pb, pb⟩
  | none =>
    match mostCommon (externalOf cfg attendees) with
    | some dom => ⟨nameFor cfg dom, dom⟩
    | none =>
      match textCandidate (eventText event_summary event_description) with
      | some cand => ⟨cand, []⟩
      | none => ⟨"Unknown".data, []⟩

/-! ### Correctness of the majority-vote selection -/

theorem mem_keysOf {x : Str} {l : List Str} : x ∈ keysOf l ↔ x ∈ l := by
  induction l with
  | nil => simp [keysOf]
  | cons a t ih =>
    simp only [keysOf, List.mem_cons, List.mem_filter]
    constructor
    · rintro (rfl | ⟨h1, _⟩)
      · left; rfl
      · right; exact ih.mp h1
    · rintro (rfl | h1)
      · left; rfl
      · by_cases hxa : x = a
        · left; exact hxa
        · right; exact ⟨ih.mpr h1, by simpa using hxa⟩

theorem maxKeyAux_mem (cnt : Str → Nat) (ks : List Str) (b : Str) :
    maxKeyAux cnt b ks ∈ b :: ks := by
  induction ks generalizing b with
  | nil => exact List.mem_cons_self _ _
  | cons k ks ih =>
    have hstep : maxKeyAux cnt b (k :: ks) = maxKeyAux cnt (if cnt b < cnt k then k else b) ks := rfl
    rw [hstep]
    rcases List.mem_cons.mp (ih (if cnt b < cnt k then k else b)) with h | h
    · rw [h]
      split
      · exact List.mem_cons_of_mem _ (List.mem_cons_self _ _)
      · exact List.mem_cons_self _ _
    · exact List.mem_cons_of_mem _ (List.mem_cons_of_mem _ h)

/-- The strict-greater scan returns either its seed (then the seed is maximal)
or the first later key that strictly exceeds everything before it and is not
exceeded by anything after it - i.e. the first occurrence of the maximum. -/
theorem maxKeyAux_spec (cnt : Str → Nat) (ks : List Str) (b : Str) :
    (maxKeyAux cnt b ks = b ∧ ∀ x ∈ ks, cnt x ≤ cnt b) ∨
    (∃ ks1 ks2, ks = ks1 ++ maxKeyAux cnt b ks :: ks2 ∧
      cnt b < cnt (maxKeyAux cnt b ks) ∧
      (∀ x ∈ ks1, cnt x < cnt (maxKeyAux cnt b ks)) ∧
      (∀ x ∈ ks2, cnt x ≤ cnt (maxKeyAux cnt b ks))) := by
  induction ks generalizing b with
  | nil => exact Or.inl ⟨rfl, by simp⟩
  | cons k ks ih =>
    have hstep : maxKeyAux cnt b (k :: ks) = maxKeyAux cnt (if cnt b < cnt k then k else b) ks := rfl
    by_cases hbk : cnt b < cnt k
    · rw [if_pos hbk] at hstep
      rcases ih k with ⟨heq, hall⟩ | ⟨ks1, ks2, hks, hlt, h1, h2⟩
      · right
        refine ⟨[], ks, ?_, ?_, ?_, ?_⟩
        · rw [hstep, heq]; rfl
        · rw [hstep, heq]; exact hbk
        · intro x hx; simp at hx
        · intro x hx; rw [hstep, heq]; exact hall x hx
      · right
        refine ⟨k :: ks1, ks2, ?_, ?_, ?_, ?_⟩
        · rw [hstep, List.cons_append, ← hks]
        · rw [hstep]; exact lt_trans hbk hlt
        · intro x hx
          rcases List.mem_cons.mp hx with rfl | hx2
          · rw [hstep]; exact hlt
          · rw [hstep]; exact h1 x hx2
        · intro x hx; rw [hstep]; exact h2 x hx
    · rw [if_neg hbk] at hstep
      rcases ih b with ⟨heq, hall⟩ | ⟨ks1, ks2, hks, hlt, h1, h2⟩
      · left
        refine ⟨by rw [hstep]; exact heq, ?_⟩
        intro x hx
        rcases List.mem_cons.mp hx with rfl | hx2
        · omega
        · exact hall x hx2
      · right
        refine ⟨k :: ks1, ks2, ?_, ?_, ?_, ?_⟩
        · rw [hstep, List.cons_append, ← hks]
        · rw [hstep]; exact hlt
        · intro x hx
          rcases List.mem_cons.mp hx with rfl | hx2
          · rw [hstep]; exact lt_of_le_of_lt (Nat.le_of_not_lt hbk) hlt
          · rw [hstep]; exact h1 x hx2
        · intro x hx; rw [hstep]; exact h2 x hx

theorem mostCommon_mem {l : List Str} {r : Str} (h : mostCommon l = some r) : r ∈ l := by
  unfold mostCommon at h
  cases hk : keysOf l with
  | nil => rw [hk] at h; exact absurd h (by simp)
  | cons k ks =>
    rw [hk] at h
    injection h with h
    subst h
    exact mem_keysOf.mp (hk ▸ maxKeyAux_mem _ ks k)

theorem find?_append_of_false {p : Str → Bool} {l1 l2 : List Str}
    (h : ∀ x ∈ l1, p x = false) : (l1 ++ l2).find? p = l2.find? p := by
  rw [List.find?_append, List.find?_eq_none.mpr (fun x hx => by simp [h x hx])]
  rfl

theorem find?_filter_ne {p : Str → Bool} {x : Str} (hx : p x = false) (ks : List Str) :
    (ks.filter (fun y => decide (y ≠ x))).find? p = ks.find? p := by
  induction ks with
  | nil => rfl
  | cons a t ih =>
    by_cases hax : a = x
    · subst hax
      rw [List.filter_cons, if_neg (by simp)]
      rw [List.find?_cons_of_neg _ (by simp [hx]), ih]
    · rw [List.filter_cons, if_pos (by simpa using hax)]
      by_cases hpa : p a = true
      · rw [List.find?_cons_of_pos _ hpa, List.find?_cons_of_pos _ hpa]
      · rw [List.find?_cons_of_neg _ hpa, List.find?_cons_of_neg _ hpa, ih]

theorem find?_keysOf (p : Str → Bool) (l : List Str) :
    (keysOf l).find? p = l.find? p := by
  induction l with
  | nil => rfl
  | cons a t ih =>
    simp only [keysOf]
    by_cases hpa : p a = true
    · rw [List.find?_cons_of_pos _ hpa, List.find?_cons_of_pos _ hpa]
    · have hpa' : p a = false := Bool.eq_false_iff.mpr hpa
      rw [List.find?_cons_of_neg _ hpa, List.find?_cons_of_neg _ hpa,
        find?_filter_ne hpa', ih]

/-- `mostCommon l` is exactly the first element of `l` whose count in `l` is
maximal: the most frequent element, ties broken by earliest first occurrence. -/
theorem mostCommon_spec (l : List Str) (hl : l ≠ []) :
    ∃ r, mostCommon l = some r ∧
      l.find? (fun x => l.all fun y => decide (l.count y ≤ l.count x)) = some r := by
  cases hk : keysOf l with
  | nil =>
    cases l with
    | nil => exact absurd rfl hl
    | cons a t => simp [keysOf] at hk
  | cons k ks =>
    have hmc : mostCommon l = some (maxKeyAux (fun x => l.count x) k ks) := by
      unfold mostCommon; rw [hk]
    refine ⟨maxKeyAux (fun x => l.count x) k ks, hmc, ?_⟩
    rw [← find?_keysOf, hk]
    have hmemr : ∀ y ∈ l, y ∈ k :: ks := fun y hy => hk ▸ mem_keysOf.mpr hy
    have hmem : ∀ x, x ∈ k :: ks → x ∈ l := fun x hx => mem_keysOf.mp (hk ▸ hx)
    rcases maxKeyAux_spec (fun x => l.count x) ks k with ⟨heq, hall⟩ | ⟨ks1, ks2, hks, hlt, h1, h2⟩
    · have hPk : (l.all fun y => decide (l.count y ≤ l.count k)) = true := by
        rw [List.all_eq_true]
        intro y hy
        rcases List.mem_cons.mp (hmemr y hy) with rfl | h
        · simp
        · simpa using hall y h
      rw [heq]
      exact @List.find?_cons_of_pos _
        (fun x => l.all fun y => decide (l.count y ≤ l.count x)) k ks hPk
    · have hrmem : maxKeyAux (fun x => l.count x) k ks ∈ l := hmem _ (maxKeyAux_mem _ ks k)
      have hmax : ∀ y ∈ l, l.count y ≤ l.count (maxKeyAux (fun x => l.count x) k ks) := by
        intro y hy
        rcases List.mem_cons.mp (hmemr y hy) with rfl | h
        · exact le_of_lt hlt
        · rw [hks] at h
          rcases List.mem_append.mp h with h3 | h3
          · exact le_of_lt (h1 y h3)
          · rcases List.mem_cons.mp h3 with h4 | h4
            · rw [h4]
            · exact h2 y h4
      have hPr : (l.all fun y =>
          decide (l.count y ≤ l.count (maxKeyAux (fun x => l.count x) k ks))) = true := by
        rw [List.all_eq_true]
        intro y hy
        simpa using hmax y hy
      have hPfail : ∀ x ∈ k :: ks1,
          (l.all fun y => decide (l.count y ≤ l.count x)) = false := by
        intro x hx
        have hxlt : l.count x < l.count (maxKeyAux (fun x => l.count x) k ks) := by
          rcases List.mem_cons.mp hx with rfl | h3
          · exact hlt
          · exact h1 x h3
        rw [Bool.eq_false_iff]
        intro hPx
        rw [List.all_eq_true] at hPx
        have := hPx _ hrmem
        simp at this
        omega
      have hsplit : k :: ks = (k :: ks1) ++ maxKeyAux (fun x => l.count x) k ks :: ks2 := by
        rw [List.cons_append, ← hks]
      rw [hsplit, find?_append_of_false hPfail]
      exact @List.find?_cons_of_pos _
        (fun x => l.all fun y => decide (l.count y ≤ l.count x))
        (maxKeyAux (fun x => l.count x) k ks) ks2 hPr

/-! ### Stage-level helper lemmas for the resolver -/

theorem priorityWinner_eq_none {cfg : Config} {ext : List Str}
    (h : ∀ p ∈ cfg.priority, base_domain p ∉ ext) : priorityWinner cfg ext = none := by
  unfold priorityWinner
  rw [List.findSome?_eq_none_iff]
  intro p hp
  rw [if_neg (h p hp)]

theorem mostCommon_eq_none {l : List Str} (h : mostCommon l = none) : l = [] := by
  cases l with
  | nil => rfl
  | cons a t =>
    unfold mostCommon at h
    simp only [keysOf] at h
    exact absurd h (by simp)

theorem domainsOf_base_domain {atts : List Attendee} {w : Str}
    (hw : w ∈ domainsOf atts) : ∃ x, w = base_domain x := by
  unfold domainsOf at hw
  rcases List.mem_filterMap.mp hw with ⟨a, _, ha⟩
  by_cases hat : '@' ∈ extractEmail a
  · rw [if_pos hat] at ha
    exact ⟨_, (Option.some.inj ha).symm⟩
  · rw [if_neg hat] at ha
    exact absurd ha (by simp)

/-! ### Claim C1: the priority stage -/

/-- C1: whenever some configured priority domain, once itself normalized by
`base_domain`, occurs in the filtered external list, the resolver returns the
first such entry (in the priority list's configured order) as
`companyDomain`, paired with its mapped/derived display name - regardless of
the frequencies of the other external domains. -/
theorem c1_priority_first_wins (cfg : Config) (atts : List Attendee) (s d : Option Str)
    (ps1 : List Str) (p : Str) (ps2 : List Str)
    (hps : cfg.priority = ps1 ++ p :: ps2)
    (hfirst : ∀ q ∈ ps1, base_domain q ∉ externalOf cfg atts)
    (hp : base_domain p ∈ externalOf cfg atts) :
    attendees_to_company cfg atts s d = ⟨nameFor cfg (base_domain p), base_domain p⟩ := by
  have hw : priorityWinner cfg (externalOf cfg atts) = some (base_domain p) := by
    unfold priorityWinner
    rw [hps, List.findSome?_append]
    have h1 : (ps1.findSome? fun q =>
        if base_domain q ∈ externalOf cfg atts then some (base_domain q) else none) = none := by
      rw [List.findSome?_eq_none_iff]
      intro q hq
      rw [if_neg (hfirst q hq)]
    rw [h1, List.findSome?_cons]
    rw [if_pos hp]
    rfl
  simp only [attendees_to_company, hw]

/-- Witness for `c1_priority_first_wins`: externals
`[acme.com, acme.com, beta.com]` with priority `[beta.com]` resolve to
`beta.com` even though `acme.com` is more frequent. -/
theorem c1_priority_first_wins_witness :
    attendees_to_company
        { defaultConfig with priority := ["beta.com".data] }
        [.dict (some "x@acme.com".data), .dict (some "y@acme.com".data),
          .dict (some "z@beta.com".data)] none none =
      ⟨nameFor { defaultConfig with priority := ["beta.com".data] } (base_domain "beta.com".data),
        base_domain "beta.com".data⟩ :=
  c1_priority_first_wins _ _ none none [] ("beta.com".data) []
    rfl (by simp) (by decide)

/-! ### Claim C2: the majority stage -/

/-- C2: when no priority entry matches and the external list is non-empty,
the resolver's `companyDomain` is exactly the first element of `external`
whose count in `external` is maximal - the most frequent external domain,
ties broken in favour of the domain whose first occurrence is earliest. -/
theorem c2_majority_most_frequent (cfg : Config) (atts : List Attendee) (s d : Option Str)
    (hpri : ∀ p ∈ cfg.priority, base_domain p ∉ externalOf cfg atts)
    (hne : externalOf cfg atts ≠ []) :
    (externalOf cfg atts).find?
        (fun x => (externalOf cfg atts).all fun y =>
          decide ((externalOf cfg atts).count y ≤ (externalOf cfg atts).count x)) =
      some ((attendees_to_company cfg atts s d).companyDomain) := by
  rcases mostCommon_spec (externalOf cfg atts) hne with ⟨r, hmc, hfind⟩
  have hres : attendees_to_company cfg atts s d = ⟨nameFor cfg r, r⟩ := by
    simp only [attendees_to_company, priorityWinner_eq_none hpri, hmc]
  rw [hres]
  exact hfind

/-- Witness for `c2_majority_most_frequent`: externals
`[a.com, b.com, a.com, b.com]` (no priority configured) resolve to `a.com`,
the tied domain seen first. -/
theorem c2_majority_most_frequent_witness :
    (externalOf defaultConfig
          [.str "w@a.com".data, .str "x@b.com".data, .str "y@a.com".data, .str "z@b.com".data]).find?
        (fun x => (externalOf defaultConfig
          [.str "w@a.com".data, .str "x@b.com".data, .str "y@a.com".data, .str "z@b.com".data]).all
          fun y =>
          decide ((externalOf defaultConfig
            [.str "w@a.com".data, .str "x@b.com".data, .str "y@a.com".data, .str "z@b.com".data]).count y ≤
            (externalOf defaultConfig
              [.str "w@a.com".data, .str "x@b.com".data, .str "y@a.com".data, .str "z@b.com".data]).count x)) =
      some ((attendees_to_company defaultConfig
        [.str "w@a.com".data, .str "x@b.com".data, .str "y@a.com".data, .str "z@b.com".data]
        none none).companyDomain) :=
  c2_majority_most_frequent defaultConfig _ none none (by simp [defaultConfig]) (by decide)

/-! ### Claim C8: the unfiltered fallback (stage 4) is dead code -/

/-- C8: whenever control reaches stage 4, `external` was empty, so the rescan
of the original domain list - which uses the very same predicate as the
stage-1 filter - finds nothing; hence the resolver with stage 4 removed is
extensionally equal to the resolver as written. -/
theorem c8_stage4_dead (cfg : Config) (atts : List Attendee) (s d : Option Str) :
    attendees_to_company_noFallback cfg atts s d = attendees_to_company cfg atts s d := by
  unfold attendees_to_company attendees_to_company_noFallback
  cases hpw : priorityWinner cfg (externalOf cfg atts) with
  | some pb => rfl
  | none =>
    cases hmc : mostCommon (externalOf cfg atts) with
    | some dom => rfl
    | none =>
      have hext : externalOf cfg atts = [] := mostCommon_eq_none hmc
      have hfind : (domainsOf atts).find? (isExternal cfg) = none := by
        rw [List.find?_eq_none]
        intro x hx
        unfold externalOf at hext
        exact fun hpx => (List.filter_eq_nil_iff.mp hext x hx) hpx
      rw [hfind]

/-! ### Claim C10: every non-empty companyDomain is a normalized domain -/

/-- C10: the returned `companyDomain` is either empty, or a fully lower-cased,
`@`-free string that is the image of some string under `base_domain`. -/
theorem c10_companyDomain_normalized (cfg : Config) (atts : List Attendee) (s d : Option Str) :
    (attendees_to_company cfg atts s d).companyDomain = [] ∨
      (pyLower ((attendees_to_company cfg atts s d).companyDomain) =
          (attendees_to_company cfg atts s d).companyDomain ∧
        '@' ∉ (attendees_to_company cfg atts s d).companyDomain ∧
        ∃ x, (attendees_to_company cfg atts s d).companyDomain = base_domain x) := by
  have key : ∀ w : Str, (∃ x, w = base_domain x) →
      pyLower w = w ∧ '@' ∉ w ∧ ∃ x, w = base_domain x := by
    rintro w ⟨x, rfl⟩
    exact ⟨pyLower_eq_self (fun c hc => toLower_of_mem_base_domain hc),
      at_not_mem_base_domain x, x, rfl⟩
  unfold attendees_to_company
  cases hpw : priorityWinner cfg (externalOf cfg atts) with
  | some pb =>
    right
    apply key
    unfold priorityWinner at hpw
    rcases List.exists_of_findSome?_eq_some hpw with ⟨p, _, hp⟩
    by_cases hmem : base_domain p ∈ externalOf cfg atts
    · rw [if_pos hmem] at hp
      exact ⟨p, (Option.some.inj hp).symm⟩
    · rw [if_neg hmem] at hp
      exact absurd hp (by simp)
  | none =>
    cases hmc : mostCommon (externalOf cfg atts) with
    | some dom =>
      right
      apply key
      have hm : dom ∈ externalOf cfg atts := mostCommon_mem hmc
      unfold externalOf at hm
      exact domainsOf_base_domain (List.mem_of_mem_filter hm)
    | none =>
      cases hf : (domainsOf atts).find? (isExternal cfg) with
      | some d0 =>
        right
        apply key
        exact domainsOf_base_domain (List.mem_of_find?_eq_some hf)
      | none =>
        cases htc : textCandidate (eventText s d) with
        | some cand => left; rfl
        | none => left; rfl

/-! ### Claim C6: display-name derivation -/

/-- `pretty_from_domain` behaves exactly as the spec describes: the portion
of the base domain before its first dot, with only its first character forced
to upper case and the remaining characters left unchanged (they are already
lower-case, so Python's `capitalize`, which also lower-cases the tail, agrees);
an empty core yields `"Unknown"`. -/
theorem pretty_from_domain_spec (w : Str) :
    pretty_from_domain w =
      match (splitOnChar '.' (base_domain w)).headD [] with
      | [] => "Unknown".data
      | c :: t => c.toUpper :: t := by
  unfold pretty_from_domain
  cases hcore : (splitOnChar '.' (base_domain w)).headD [] with
  | nil => simp
  | cons c t =>
    rw [if_neg (by simp)]
    show c.toUpper :: pyLower t = c.toUpper :: t
    congr 1
    apply pyLower_eq_self
    intro x hx
    apply toLower_of_mem_base_domain (d := w)
    have hmem_core : (c :: t) ∈ splitOnChar '.' (base_domain w) := by
      cases hsp : splitOnChar '.' (base_domain w) with
      | nil => exact absurd hsp (splitOnChar_ne_nil '.' (base_domain w))
      | cons p ps =>
        rw [hsp] at hcore
        simp only [List.headD_cons] at hcore
        rw [hcore] at hsp ⊢
        exact List.mem_cons_self _ _
    exact mem_of_mem_splitOnChar hmem_core (List.mem_cons_of_mem c hx)

/-- C6: for every winning (non-empty) domain, the display name is the
`nameMap` entry for that (lower-cased) domain when present, and otherwise the
portion of the base domain before its first dot with only the first character
upper-cased and the rest unchanged; an empty core yields `"Unknown"`. -/
theorem c6_display_name (cfg : Config) (atts : List Attendee) (s d : Option Str)
    (hne : (attendees_to_company cfg atts s d).companyDomain ≠ []) :
    (attendees_to_company cfg atts s d).companyName =
      (dictGet cfg.nameMap ((attendees_to_company cfg atts s d).companyDomain)).getD
        (match (splitOnChar '.'
            (base_domain ((attendees_to_company cfg atts s d).companyDomain))).headD [] with
         | [] => "Unknown".data
         | c :: t => c.toUpper :: t) := by
  have hcases : (attendees_to_company cfg atts s d).companyDomain = [] ∨
      attendees_to_company cfg atts s d =
        ⟨nameFor cfg ((attendees_to_company cfg atts s d).companyDomain),
          (attendees_to_company cfg atts s d).companyDomain⟩ := by
    unfold attendees_to_company
    cases hpw : priorityWinner cfg (externalOf cfg atts) with
    | some pb => right; rfl
    | none =>
      cases hmc : mostCommon (externalOf cfg atts) with
      | some dom => right; rfl
      | none =>
        cases hf : (domainsOf atts).find? (isExternal cfg) with
        | some d0 => right; rfl
        | none =>
          cases htc : textCandidate (eventText s d) with
          | some cand => left; rfl
          | none => left; rfl
  rcases hcases with h | h
  · exact absurd h hne
  · have hname : (attendees_to_company cfg atts s d).companyName =
        nameFor cfg ((attendees_to_company cfg atts s d).companyDomain) := by
      conv_lhs => rw [h]
    rw [hname]
    unfold nameFor
    rw [pretty_from_domain_spec]

/-- Witness for `c6_display_name`: a single external attendee
`jane@acme.com` under the default configuration. -/
theorem c6_display_name_witness :
    (attendees_to_company defaultConfig [.dict (some "jane@acme.com".data)] none none).companyDomain
        ≠ [] ∧
      (attendees_to_company defaultConfig [.dict (some "jane@acme.com".data)] none
            none).companyName =
        (dictGet defaultConfig.nameMap
            ((attendees_to_company defaultConfig [.dict (some "jane@acme.com".data)] none
              none).companyDomain)).getD
          (match (splitOnChar '.'
              (base_domain ((attendees_to_company defaultConfig
                [.dict (some "jane@acme.com".data)] none none).companyDomain))).headD [] with
           | [] => "Unknown".data
           | c :: t => c.toUpper :: t) :=
  ⟨by decide, c6_display_name defaultConfig [.dict (some "jane@acme.com".data)] none none
    (by decide)⟩


/-! ### Case-insensitivity of the stage-5 matchers (claims C4/C5) -/

theorem Char.eq_iff_toNat {c d : Char} : c = d ↔ c.toNat = d.toNat :=
  ⟨fun h => congrArg Char.toNat h, Char.toNat_inj'⟩

theorem isWhitespace_toLower (c : Char) : c.toLower.isWhitespace = c.isWhitespace := by
  rcases Char.toLower_fix_or_lower c with ⟨heq, _⟩ | ⟨h1, h2, h3, h4⟩
  · rw [heq]
  · have hfL : ∀ d : Char, d.toNat < 97 ∨ 122 < d.toNat → decide (c.toLower = d) = false := by
      intro d hd
      apply decide_eq_false
      intro he
      have := congrArg Char.toNat he
      omega
    have hfU : ∀ d : Char, d.toNat < 65 ∨ 90 < d.toNat → decide (c = d) = false := by
      intro d hd
      apply decide_eq_false
      intro he
      have := congrArg Char.toNat he
      omega
    show (decide (c.toLower = ' ') || decide (c.toLower = '\t') ||
        decide (c.toLower = '\x0d') || decide (c.toLower = '\n')) =
      (decide (c = ' ') || decide (c = '\t') || decide (c = '\x0d') || decide (c = '\n'))
    rw [hfL ' ' (by decide), hfL '\t' (by decide), hfL '\x0d' (by decide), hfL '\n' (by decide),
      hfU ' ' (by decide), hfU '\t' (by decide), hfU '\x0d' (by decide), hfU '\n' (by decide)]

theorem isLetterCI_toLower (c : Char) : isLetterCI c.toLower = isLetterCI c := by
  unfold isLetterCI
  rw [Char.toNat_toLower]
  by_cases h : 65 ≤ c.toNat ∧ c.toNat ≤ 90
  · rw [if_pos h]
    apply decide_eq_decide.mpr
    omega
  · rw [if_neg h]

theorem isPhraseChar_toLower (c : Char) : isPhraseChar c.toLower = isPhraseChar c := by
  unfold isPhraseChar
  rw [Char.toNat_toLower]
  by_cases h : 65 ≤ c.toNat ∧ c.toNat ≤ 90
  · rw [if_pos h]
    apply decide_eq_decide.mpr
    omega
  · rw [if_neg h]

theorem pyLower_pyLower (s : Str) : pyLower (pyLower s) = pyLower s := by
  unfold pyLower
  rw [List.map_map]
  exact List.map_congr_left fun c _ => Char.toLower_toLower c

theorem litCI_pyLower (lit : Str) : ∀ s : Str,
    litCI lit (pyLower s) = (litCI lit s).map pyLower := by
  induction lit with
  | nil => intro s; rfl
  | cons l ls ih =>
    intro s
    cases s with
    | nil => rfl
    | cons c cs =>
      show (if c.toLower.toLower = l then litCI ls (pyLower cs) else none) =
        (if c.toLower = l then litCI ls cs else none).map pyLower
      rw [Char.toLower_toLower]
      by_cases hcl : c.toLower = l
      · rw [if_pos hcl, if_pos hcl]
        exact ih cs
      · rw [if_neg hcl, if_neg hcl]
        rfl

theorem takeWhile_phrase_pyLower (s : Str) :
    (pyLower s).takeWhile isPhraseChar = pyLower (s.takeWhile isPhraseChar) := by
  unfold pyLower
  rw [List.takeWhile_map]
  have hfun : (isPhraseChar ∘ Char.toLower) = isPhraseChar := funext isPhraseChar_toLower
  rw [hfun]

theorem dropWhile_ws_pyLower (s : Str) :
    (pyLower s).dropWhile Char.isWhitespace = pyLower (s.dropWhile Char.isWhitespace) := by
  unfold pyLower
  rw [List.dropWhile_map]
  have hfun : (Char.isWhitespace ∘ Char.toLower) = Char.isWhitespace :=
    funext isWhitespace_toLower
  rw [hfun]

theorem phraseAt_pyLower (s : Str) :
    phraseAt isLetterCI (pyLower s) = (phraseAt isLetterCI s).map pyLower := by
  cases s with
  | nil => rfl
  | cons c rest =>
    show (if isLetterCI c.toLower = true then
        (if 2 ≤ ((pyLower rest).takeWhile isPhraseChar).length then
          some (c.toLower :: (pyLower rest).takeWhile isPhraseChar) else none)
      else none) =
      ((if isLetterCI c = true then
        (if 2 ≤ (rest.takeWhile isPhraseChar).length then
          some (c :: rest.takeWhile isPhraseChar) else none)
      else none) : Option Str).map pyLower
    rw [isLetterCI_toLower, takeWhile_phrase_pyLower]
    by_cases hc : isLetterCI c = true
    · rw [if_pos hc, if_pos hc]
      have hlen : (pyLower (rest.takeWhile isPhraseChar)).length =
          (rest.takeWhile isPhraseChar).length := List.length_map _ _
      by_cases h2 : 2 ≤ (rest.takeWhile isPhraseChar).length
      · rw [if_pos (by omega), if_pos h2]
        rfl
      · rw [if_neg (by omega), if_neg h2]
        rfl
    · rw [if_neg hc, if_neg hc]
      rfl

theorem wsPlusPhrase_pyLower (rest : Str) :
    wsPlusPhrase (pyLower rest) = (wsPlusPhrase rest).map pyLower := by
  cases rest with
  | nil => rfl
  | cons c t =>
    show (if c.toLower.isWhitespace = true then
        phraseAt isLetterCI ((c.toLower :: pyLower t).dropWhile Char.isWhitespace)
      else none) =
      ((if c.isWhitespace = true then
        phraseAt isLetterCI ((c :: t).dropWhile Char.isWhitespace)
      else none) : Option Str).map pyLower
    rw [isWhitespace_toLower]
    by_cases hc : c.isWhitespace = true
    · rw [if_pos hc, if_pos hc]
      have hdw : (c.toLower :: pyLower t).dropWhile Char.isWhitespace =
          pyLower ((c :: t).dropWhile Char.isWhitespace) := by
        show (pyLower (c :: t)).dropWhile Char.isWhitespace = _
        exact dropWhile_ws_pyLower (c :: t)
      rw [hdw]
      exact phraseAt_pyLower _
    · rw [if_neg hc, if_neg hc]
      rfl

theorem withForAt_pyLower (s : Str) : withForAt (pyLower s) = (withForAt s).map pyLower := by
  unfold withForAt
  rw [litCI_pyLower, litCI_pyLower]
  cases h1 : litCI "with".data s with
  | some r =>
    simp only [Option.map_some', Option.some_orElse]
    exact wsPlusPhrase_pyLower r
  | none =>
    simp only [Option.map_none', Option.none_orElse]
    cases h2 : litCI "for".data s with
    | some r =>
      simp only [Option.map_some']
      exact wsPlusPhrase_pyLower r
    | none => rfl

theorem pocAt_pyLower (s : Str) : pocAt (pyLower s) = (pocAt s).map pyLower := by
  unfold pocAt
  rw [litCI_pyLower]
  cases h1 : litCI "poc".data s with
  | some r =>
    simp only [Option.map_some']
    cases r with
    | nil => rfl
    | cons c t =>
      show (if c.toLower = ':' ∨ c.toLower = '-' then
          phraseAt isLetterCI ((pyLower t).dropWhile Char.isWhitespace)
        else none) =
        ((if c = ':' ∨ c = '-' then
          phraseAt isLetterCI (t.dropWhile Char.isWhitespace)
        else none) : Option Str).map pyLower
      have hiff : (c.toLower = ':' ∨ c.toLower = '-') ↔ (c = ':' ∨ c = '-') := by
        rw [Char.eq_iff_toNat, Char.eq_iff_toNat, Char.eq_iff_toNat (d := ':'),
          Char.eq_iff_toNat (d := '-'), Char.toNat_toLower]
        show (_ = (58:Nat) ∨ _ = (45:Nat)) ↔ (c.toNat = 58 ∨ c.toNat = 45)
        by_cases h : 65 ≤ c.toNat ∧ c.toNat ≤ 90
        · rw [if_pos h]; omega
        · rw [if_neg h]
      by_cases hc : c = ':' ∨ c = '-'
      · rw [if_pos (hiff.mpr hc), if_pos hc, dropWhile_ws_pyLower]
        exact phraseAt_pyLower _
      · rw [if_neg (fun h => hc (hiff.mp h)), if_neg hc]
        rfl
  | none => rfl

theorem searchAux_pyLower (m : Str → Option Str)
    (hm : ∀ u : Str, m (pyLower u) = (m u).map pyLower) : ∀ s : Str,
    searchAux m (pyLower s) = (searchAux m s).map pyLower := by
  intro s
  induction s with
  | nil => exact hm []
  | cons c rest ih =>
    show searchAux m (pyLower (c :: rest)) = _
    have hstep : searchAux m (pyLower (c :: rest)) =
        match m (pyLower (c :: rest)) with
        | some g => some g
        | none => searchAux m (pyLower rest) := rfl
    have hstep2 : searchAux m (c :: rest) =
        match m (c :: rest) with
        | some g => some g
        | none => searchAux m rest := rfl
    rw [hstep, hstep2, hm (c :: rest)]
    cases h : m (c :: rest) with
    | some g => rfl
    | none => exact ih

/-! ### Claims C4 and C5: the text-pattern fallback -/

/-- With no domain evidence at all, the resolver reduces to the stage-5
text fallback over the joined event text. -/
theorem resolve_no_domains (cfg : Config) (atts : List Attendee) (s d : Option Str)
    (h : domainsOf atts = []) :
    attendees_to_company cfg atts s d =
      match textCandidate (eventText s d) with
      | some cand => ⟨cand, []⟩
      | none => ⟨"Unknown".data, []⟩ := by
  have hext : externalOf cfg atts = [] := by
    unfold externalOf
    rw [h]
    rfl
  have hpw : priorityWinner cfg ([] : List Str) = none :=
    priorityWinner_eq_none (by simp)
  unfold attendees_to_company
  rw [hext, h, hpw]
  rfl

/-- C4: in stage 5, the first pattern whose match succeeds decides the
outcome - when its captured text, stripped and lower-cased, is one of the
stop words, the resolver does not consult the remaining patterns and falls
through to the Unknown result. -/
theorem c4_stopword_rejection (cfg : Config) (atts : List Attendee) (s d : Option Str) (g : Str)
    (hdom : domainsOf atts = [])
    (hmatch : (searchWithFor (eventText s d) <|> searchPOC (eventText s d) <|>
        searchParen (eventText s d)) = some g)
    (hstop : pyLower (pyStrip g) ∈ stopWords) :
    attendees_to_company cfg atts s d = ⟨"Unknown".data, []⟩ := by
  rw [resolve_no_domains cfg atts s d hdom]
  have htc : textCandidate (eventText s d) = none := by
    unfold textCandidate
    rw [hmatch]
    show (if pyLower (pyStrip g) ∈ stopWords then none else some (pyStrip g)) = none
    rw [if_pos hstop]
  rw [htc]

/-- Witness for `c4_stopword_rejection`: the event summary
`"POC: Demo (Acme Corp)"` with no attendees.  The first successful pattern
is the `POC[:-]` one with captured group `"Demo "`, a stop word once
stripped and lower-cased, so the resolver returns Unknown - even though the
parenthesized pattern would have matched `"Acme Corp"`. -/
theorem c4_stopword_rejection_witness :
    (searchWithFor (eventText (some "POC: Demo (Acme Corp)".data) none) <|>
        searchPOC (eventText (some "POC: Demo (Acme Corp)".data) none) <|>
        searchParen (eventText (some "POC: Demo (Acme Corp)".data) none)) =
      some ("Demo ".data) ∧
    pyLower (pyStrip ("Demo ".data)) ∈ stopWords ∧
    searchParen (eventText (some "POC: Demo (Acme Corp)".data) none) =
      some ("Acme Corp".data) ∧
    attendees_to_company defaultConfig [] (some "POC: Demo (Acme Corp)".data) none =
      ⟨"Unknown".data, []⟩ :=
  ⟨by decide, by decide, by decide,
    c4_stopword_rejection defaultConfig [] (some "POC: Demo (Acme Corp)".data) none
      ("Demo ".data) rfl (by decide) (by decide)⟩

/-- C5 counterexample: the parenthesized pattern (pattern (c)) is compiled
WITHOUT `re.IGNORECASE`, so - contrary to the claim that all three patterns
match case-insensitively - it matches `"(Acme Co)"` but not its lower-case
variant `"(acme co)"`, observably end-to-end. -/
theorem c5_counterexample :
    searchParen ("(Acme Co)".data) = some ("Acme Co".data) ∧
    searchParen ("(acme co)".data) = none ∧
    attendees_to_company defaultConfig [] (some "(Acme Co)".data) none =
      ⟨"Acme Co".data, []⟩ ∧
    attendees_to_company defaultConfig [] (some "(acme co)".data) none =
      ⟨"Unknown".data, []⟩ :=
  ⟨by decide, by decide, by decide, by decide⟩

/-- C5 (amended): with no domain evidence the resolver applies the three
patterns, in order, to the summary and description joined by a single space;
patterns (a) `with|for <phrase>` and (b) `POC[:-] <phrase>` match
case-insensitively (lower-casing the text commutes with their search), while
pattern (c), the parenthesized phrase, is case-sensitive. -/
theorem c5_text_fallback_patterns :
    (∀ t : Str, searchWithFor (pyLower t) = (searchWithFor t).map pyLower) ∧
    (∀ t : Str, searchPOC (pyLower t) = (searchPOC t).map pyLower) ∧
    (searchParen ("(Acme Co)".data) = some ("Acme Co".data) ∧
      searchParen (pyLower ("(Acme Co)".data)) = none) ∧
    (∀ (cfg : Config) (atts : List Attendee) (s d : Option Str),
      domainsOf atts = [] →
      attendees_to_company cfg atts s d =
        match textCandidate (eventText s d) with
        | some cand => ⟨cand, []⟩
        | none => ⟨"Unknown".data, []⟩) :=
  ⟨fun t => searchAux_pyLower withForAt withForAt_pyLower t,
    fun t => searchAux_pyLower pocAt pocAt_pyLower t,
    ⟨by decide, by decide⟩,
    resolve_no_domains⟩

/-- Witness for `c5_text_fallback_patterns` at concrete inputs. -/
theorem c5_text_fallback_patterns_witness :
    searchWithFor (pyLower "Kickoff WITH Beta Corp".data) =
      (searchWithFor "Kickoff WITH Beta Corp".data).map pyLower ∧
    searchPOC (pyLower "poc- Acme".data) = (searchPOC "poc- Acme".data).map pyLower ∧
    attendees_to_company defaultConfig [] (some "(Acme Co)".data) none =
      (match textCandidate (eventText (some "(Acme Co)".data) none) with
       | some cand => ⟨cand, []⟩
       | none => ⟨"Unknown".data, []⟩) :=
  ⟨c5_text_fallback_patterns.1 _, c5_text_fallback_patterns.2.1 _,
    c5_text_fallback_patterns.2.2.2 defaultConfig [] (some "(Acme Co)".data) none rfl⟩

/-! ### Claim C7: malformed input is absence of evidence; bad nameMap entries are skipped -/

theorem splitOnChar_cons_sep (sep : Char) (w : Str) :
    splitOnChar sep (sep :: w) = [] :: splitOnChar sep w := by
  conv_lhs => unfold splitOnChar
  rw [if_pos rfl]

theorem splitOnChar_cons_ne (sep c : Char) (w : Str) (hc : c ≠ sep) :
    splitOnChar sep (c :: w) =
      match splitOnChar sep w with
      | [] => [[c]]
      | p :: ps => (c :: p) :: ps := by
  conv_lhs => unfold splitOnChar
  rw [if_neg hc]

theorem splitOnChar_append_sep (sep : Char) (u v : Str) :
    splitOnChar sep (u ++ sep :: v) = splitOnChar sep u ++ splitOnChar sep v := by
  induction u with
  | nil => simp [splitOnChar]
  | cons c u ih =>
    by_cases hc : c = sep
    · subst hc
      rw [List.cons_append, splitOnChar_cons_sep, splitOnChar_cons_sep, ih, List.cons_append]
    · rw [List.cons_append, splitOnChar_cons_ne sep c _ hc, splitOnChar_cons_ne sep c _ hc, ih]
      cases hu : splitOnChar sep u with
      | nil => exact absurd hu (splitOnChar_ne_nil sep u)
      | cons p ps => rfl

theorem splitOnChar_eq_single {sep : Char} {s : Str} (h : sep ∉ s) :
    splitOnChar sep s = [s] := by
  induction s with
  | nil => rfl
  | cons c t ih =>
    conv_lhs => unfold splitOnChar
    rw [if_neg (by intro hc; subst hc; exact h (List.mem_cons_self c t))]
    rw [ih (fun hm => h (List.mem_cons_of_mem c hm))]

/-- C7: (i) attendee entries yielding no `@`-containing email - dicts without
a usable email, plain strings or stringified other values without `@` - are
absence of evidence: together with missing summary and description the
resolver returns the Unknown result (it is total by construction); (ii) a
`DOMAIN_NAME_MAP` entry without the `:` separator is skipped by the parser
rather than raising. -/
theorem c7_totality :
    (∀ (cfg : Config) (atts : List Attendee),
      (∀ a ∈ atts, '@' ∉ extractEmail a) →
      attendees_to_company cfg atts none none = ⟨"Unknown".data, []⟩) ∧
    (∀ a b bad : Str, ',' ∉ bad → ':' ∉ bad →
      parseNameMap (a ++ ',' :: bad ++ ',' :: b) = parseNameMap (a ++ ',' :: b)) := by
  constructor
  · intro cfg atts h
    have hdom : domainsOf atts = [] := by
      unfold domainsOf
      rw [List.filterMap_eq_nil_iff]
      intro a ha
      rw [if_neg (h a ha)]
    rw [resolve_no_domains cfg atts none none hdom]
    have htc : textCandidate (eventText none none) = none := by decide
    rw [htc]
  · intro a b bad hcomma hcolon
    unfold parseNameMap
    have h1 : splitOnChar ',' (a ++ ',' :: bad ++ ',' :: b) =
        splitOnChar ',' a ++ bad :: splitOnChar ',' b := by
      rw [splitOnChar_append_sep, splitOnChar_append_sep, splitOnChar_eq_single hcomma,
        List.append_assoc, List.singleton_append]
    rw [h1, splitOnChar_append_sep]
    rw [List.filter_append, List.filter_append, List.filter_cons,
      if_neg (by simpa using hcolon)]

/-- Witness for `c7_totality`: a dict without email, a plain string without
`@`, and a whitespace-only email are all skipped, yielding Unknown; and a
separator-less `DOMAIN_NAME_MAP` entry `"oops"` is skipped by the parser. -/
theorem c7_totality_witness :
    attendees_to_company defaultConfig
        [.dict none, .str "hello".data, .dict (some "   ".data)] none none =
      ⟨"Unknown".data, []⟩ ∧
    parseNameMap ("fb.com:Meta".data ++ ',' :: "oops".data ++ ',' :: "google.com:Google".data) =
      parseNameMap ("fb.com:Meta".data ++ ',' :: "google.com:Google".data) :=
  ⟨c7_totality.1 defaultConfig [.dict none, .str "hello".data, .dict (some "   ".data)]
      (by decide),
    c7_totality.2 ("fb.com:Meta".data) ("google.com:Google".data) ("oops".data)
      (by decide) (by decide)⟩

/-! ### Claim C9: `collect_event_emails` from `app.py` -/

/-- An attendee entry as consumed by `collect_event_emails`: a dict (with an
optional `"email"` value), a plain string, or any other value - the latter is
skipped there (unlike in `attendees_to_company`, which stringifies it). -/
inductive EventAttendee
  | dict (email : Option Str)
  | str (s : Str)
  | other
deriving DecidableEq

/-- The fields of a calendar event read by `collect_event_emails`: the
attendee list plus the `organizer` and `creator` records, each contributing
at most an email string (a missing record or missing email reads as `""`). -/
structure CalendarEvent where
  attendees : List EventAttendee
  organizer : Option Str
  creator : Option Str

/-- The email stream accumulated by `collect_event_emails` before
deduplication: attendee emails (dicts contribute `.strip().lower()` of their
email when non-empty; strings are appended unconditionally), then the
organizer's and creator's emails when non-empty. -/
def rawEventEmails (e : CalendarEvent) : List Str :=
  (e.attendees.filterMap fun a =>
    match a with
    | .dict oe =>
      if pyLower (pyStrip (oe.getD [])) = [] then none
      else some (pyLower (pyStrip (oe.getD [])))
    | .str s => some (pyLower (pyStrip s))
    | .other => none) ++
  ([e.organizer, e.creator].filterMap fun oi =>
    if pyLower (pyStrip (oi.getD [])) = [] then none
    else some (pyLower (pyStrip (oi.getD []))))

/-- The dedup loop of `collect_event_emails` (`seen` is a set whose members
are exactly the members of `out`, so one accumulator suffices). -/
def dedupAux (out : List Str) : List Str → List Str
  | [] => out
  | em :: rest => if em ∈ out then dedupAux out rest else dedupAux (out ++ [em]) rest

/-- `collect_event_emails` from `app.py`: gather attendee, organizer and
creator emails, lower-cased, and deduplicate keeping first occurrences. -/
def collect_event_emails (e : CalendarEvent) : List Str :=
  dedupAux [] (rawEventEmails e)

theorem dedupAux_eq_keysOf_filter (l : List Str) : ∀ out : List Str,
    dedupAux out l = out ++ (keysOf l).filter (fun x => decide (x ∉ out)) := by
  induction l with
  | nil => intro out; simp [dedupAux, keysOf]
  | cons em rest ih =>
    intro out
    show (if em ∈ out then dedupAux out rest else dedupAux (out ++ [em]) rest) = _
    simp only [keysOf]
    by_cases hm : em ∈ out
    · rw [if_pos hm, ih out]
      congr 1
      rw [List.filter_cons, if_neg (by simp [hm]), List.filter_filter]
      apply List.filter_congr
      intro x _
      by_cases hx : x = em
      · subst hx
        simp [hm]
      · simp [hx]
    · rw [if_neg hm, ih (out ++ [em])]
      rw [List.filter_cons, if_pos (by simpa using hm)]
      rw [List.append_assoc, List.singleton_append]
      congr 1
      congr 1
      rw [List.filter_filter]
      apply List.filter_congr
      intro x _
      by_cases hx : x = em
      · subst hx
        simp
      · simp [hx, List.mem_append]

theorem collect_event_emails_eq_keysOf (e : CalendarEvent) :
    collect_event_emails e = keysOf (rawEventEmails e) := by
  unfold collect_event_emails
  rw [dedupAux_eq_keysOf_filter]
  rw [List.nil_append]
  apply List.filter_eq_self.mpr
  intro a _
  simp

theorem keysOf_nodup (l : List Str) : (keysOf l).Nodup := by
  induction l with
  | nil => simp [keysOf]
  | cons a t ih =>
    simp only [keysOf]
    rw [List.nodup_cons]
    constructor
    · intro hmem
      have := (List.mem_filter.mp hmem).2
      simp at this
    · exact List.Nodup.filter _ ih


theorem indexOf_cons_self_str (a : Str) (l : List Str) : (a :: l).indexOf a = 0 := by
  simp [List.indexOf, List.findIdx_cons]

theorem indexOf_cons_ne_str {a b : Str} (l : List Str) (h : b ≠ a) :
    (b :: l).indexOf a = l.indexOf a + 1 := by
  have hb : (b == a) = false := by
    simp only [beq_eq_false_iff_ne, ne_eq]
    exact h
  simp [List.indexOf, List.findIdx_cons, hb]

theorem keysOf_pairwise_indexOf (l : List Str) :
    (keysOf l).Pairwise (fun x y => l.indexOf x < l.indexOf y) := by
  induction l with
  | nil => simp [keysOf]
  | cons a t ih =>
    simp only [keysOf]
    rw [List.pairwise_cons]
    constructor
    · intro y hy
      have hya : y ≠ a := by simpa using (List.mem_filter.mp hy).2
      rw [indexOf_cons_self_str, indexOf_cons_ne_str t (Ne.symm hya)]
      exact Nat.succ_pos _
    · have hf : ((keysOf t).filter (fun y => decide (y ≠ a))).Pairwise
          (fun x y => t.indexOf x < t.indexOf y) := List.Pairwise.filter _ ih
      apply List.Pairwise.imp_of_mem ?_ hf
      intro x y hx hy hlt
      have hxa : x ≠ a := by simpa using (List.mem_filter.mp hx).2
      have hya : y ≠ a := by simpa using (List.mem_filter.mp hy).2
      rw [indexOf_cons_ne_str t (Ne.symm hxa), indexOf_cons_ne_str t (Ne.symm hya)]
      exact Nat.succ_lt_succ hlt

/-- Every element of the pre-dedup email stream is a `pyLower` image, hence
fixed by `pyLower`. -/
theorem rawEventEmails_lower {e : CalendarEvent} {x : Str}
    (hx : x ∈ rawEventEmails e) : pyLower x = x := by
  unfold rawEventEmails at hx
  rcases List.mem_append.mp hx with hx1 | hx1
  · rcases List.mem_filterMap.mp hx1 with ⟨a, _, ha⟩
    cases a with
    | dict oe =>
      have ha' : (if pyLower (pyStrip (oe.getD [])) = [] then (none : Option Str)
          else some (pyLower (pyStrip (oe.getD [])))) = some x := ha
      split at ha'
      · exact absurd ha' (by simp)
      · rw [← Option.some.inj ha']
        exact pyLower_pyLower _
    | str s =>
      have ha' : some (pyLower (pyStrip s)) = some x := ha
      rw [← Option.some.inj ha']
      exact pyLower_pyLower _
    | other =>
      have ha' : (none : Option Str) = some x := ha
      exact absurd ha' (by simp)
  · rcases List.mem_filterMap.mp hx1 with ⟨oi, _, ha⟩
    have ha' : (if pyLower (pyStrip (oi.getD [])) = [] then (none : Option Str)
        else some (pyLower (pyStrip (oi.getD [])))) = some x := ha
    split at ha'
    · exact absurd ha' (by simp)
    · rw [← Option.some.inj ha']
      exact pyLower_pyLower _

/-- C9: `collect_event_emails` (attendees plus organizer and creator) returns
lower-cased emails; it contains exactly the emails of the raw stream; its
order is the order of first appearance in that stream; and no two returned
entries are equal up to letter case. -/
theorem c9_collect_event_emails (e : CalendarEvent) :
    (∀ x ∈ collect_event_emails e, pyLower x = x) ∧
    (∀ x, x ∈ collect_event_emails e ↔ x ∈ rawEventEmails e) ∧
    (collect_event_emails e).Pairwise
      (fun x y => (rawEventEmails e).indexOf x < (rawEventEmails e).indexOf y) ∧
    (collect_event_emails e).Pairwise (fun x y => pyLower x ≠ pyLower y) := by
  rw [collect_event_emails_eq_keysOf]
  refine ⟨?_, ?_, ?_, ?_⟩
  · intro x hx
    exact rawEventEmails_lower (mem_keysOf.mp hx)
  · intro x
    exact mem_keysOf
  · exact keysOf_pairwise_indexOf _
  · apply List.Pairwise.imp_of_mem ?_ (keysOf_nodup (rawEventEmails e))
    intro x y hx hy hne
    rw [rawEventEmails_lower (mem_keysOf.mp hx), rawEventEmails_lower (mem_keysOf.mp hy)]
    exact hne
